import Mathlib

/-!
Verification of the election win-probability estimator (`elections.py`).

The program has three numeric pieces:

* `line i total` — picks a matplotlib style string for the `i`-th of
  `total` plotted curves (`"b-"` = cool/LOW, `"r-"` = warm/HIGH,
  `"g-"` = neutral/MID).  Python's `/` is true division, so the median
  is computed over the rationals here.
* `alpha_beta mu sigma` — method-of-moments conversion of a prior mean
  and standard deviation into Beta shape parameters.
* `winning_probabilities` — Beta-Binomial conjugate update: for each
  hypothetical fraction of counted votes in favor it forms the posterior
  Beta distribution and returns `1 - cdf(0.5)`.

`scipy.stats.beta(a, b).cdf x` is the regularized incomplete beta
function, embedded below as `betaCdf` via the interval integral of the
Beta kernel `t^(a-1) * (1-t)^(b-1)`.
-/

open Set MeasureTheory intervalIntegral

/-- Visual role of a plotted curve, the spec-level view of the style
strings returned by `line` (`LOW` = `"b-"`, `MID` = `"g-"`, `HIGH` = `"r-"`). -/
inductive Role where
  | LOW
  | MID
  | HIGH
deriving DecidableEq

/-- Embedding of `line(i, total)` from `elections.py`: the matplotlib style
string for the `i`-th of `total` curves.  `if i:` in Python is `i ≠ 0`;
`(total - 1) / 2` is true division, taken in `ℚ`. -/
def line (i total : ℕ) : String :=
  if total = 2 then
    if i ≠ 0 then "r-" else "b-"
  else
    let median : ℚ := ((total : ℚ) - 1) / 2
    if (i : ℚ) < median - 1/2 then "b-"
    else if (i : ℚ) > median + 1/2 then "r-"
    else "g-"

/-- The line-role classifier: `line`'s style strings read back as the
categorical roles used by the spec. -/
def role (i total : ℕ) : Role :=
  if line i total = "b-" then Role.LOW
  else if line i total = "r-" then Role.HIGH
  else Role.MID

/-- Embedding of `alpha_beta(mu, sigma)` from `elections.py`:
`alpha = mu ** 2 * ((1 - mu) / sigma ** 2 - 1 / mu)`,
`beta = alpha * (1 / mu - 1)`. -/
noncomputable def alpha_beta (mu sigma : ℝ) : ℝ × ℝ :=
  let alpha := mu ^ 2 * ((1 - mu) / sigma ^ 2 - 1 / mu)
  let beta := alpha * (1 / mu - 1)
  (alpha, beta)

/-- The unnormalized Beta density `t^(a-1) * (1-t)^(b-1)` (real powers). -/
noncomputable def betaKernel (a b t : ℝ) : ℝ :=
  t ^ (a - 1) * (1 - t) ^ (b - 1)

/-- The (unregularized) incomplete beta integral `∫_0^x t^(a-1) (1-t)^(b-1) dt`. -/
noncomputable def incompleteBeta (a b x : ℝ) : ℝ :=
  ∫ t in (0:ℝ)..x, betaKernel a b t

/-- The Beta cumulative distribution function, i.e. the regularized
incomplete beta function: this is what `scipy.stats.beta(a, b).cdf(x)`
computes. -/
noncomputable def betaCdf (a b x : ℝ) : ℝ :=
  incompleteBeta a b x / incompleteBeta a b 1

/-- Embedding of `winning_probabilities` from `elections.py`: the prior is
converted to Beta parameters, `counted_votes = total_votes * fraction_counted`,
and for each `fraction_in_favor` the posterior Beta distribution
`(prior_alpha + votes_in_favor, prior_beta + votes_against)` is evaluated at
`1 - cdf(0.5)`.  The Python accumulator loop is a `List.map`. -/
noncomputable def winning_probabilities (prior_mu prior_sigma total_votes
    fraction_counted : ℝ) (fractions_in_favor : List ℝ) : List ℝ :=
  let prior_alpha := (alpha_beta prior_mu prior_sigma).1
  let prior_beta := (alpha_beta prior_mu prior_sigma).2
  let counted_votes := total_votes * fraction_counted
  fractions_in_favor.map fun fraction_in_favor =>
    let votes_in_favor := counted_votes * fraction_in_favor
    let votes_against := counted_votes - votes_in_favor
    1 - betaCdf (prior_alpha + votes_in_favor) (prior_beta + votes_against) (1/2)

/-- Shared shape lemma: `winning_probabilities` is the map of the posterior
tail probability over the input list, with the posterior parameters written
as `alpha + c*x` and `beta + c*(1-x)` for `c = total_votes * fraction_counted`. -/
lemma winning_probabilities_eq_map (mu sigma T f : ℝ) (xs : List ℝ) :
    winning_probabilities mu sigma T f xs = xs.map (fun x =>
      1 - betaCdf ((alpha_beta mu sigma).1 + T * f * x)
        ((alpha_beta mu sigma).2 + T * f * (1 - x)) (1/2)) := by
  unfold winning_probabilities
  refine List.map_congr_left fun x _ => ?_
  show 1 - betaCdf ((alpha_beta mu sigma).1 + T * f * x)
      ((alpha_beta mu sigma).2 + (T * f - T * f * x)) (1/2)
    = 1 - betaCdf ((alpha_beta mu sigma).1 + T * f * x)
      ((alpha_beta mu sigma).2 + T * f * (1 - x)) (1/2)
  rw [show (alpha_beta mu sigma).2 + (T * f - T * f * x)
      = (alpha_beta mu sigma).2 + T * f * (1 - x) from by ring]

/-- Shared positivity lemma: for a jointly feasible prior
(`0 < mu < 1`, `sigma > 0`, `sigma² < mu(1-mu)`) both Beta shape parameters
returned by `alpha_beta` are strictly positive. -/
lemma alpha_beta_pos (mu sigma : ℝ) (hmu0 : 0 < mu) (hmu1 : mu < 1)
    (hs : 0 < sigma) (hvar : sigma ^ 2 < mu * (1 - mu)) :
    0 < (alpha_beta mu sigma).1 ∧ 0 < (alpha_beta mu sigma).2 := by
  have hs2 : (0:ℝ) < sigma ^ 2 := by positivity
  have h1 : 1 / mu < (1 - mu) / sigma ^ 2 := by
    rw [div_lt_div_iff hmu0 hs2]
    nlinarith
  have halpha : 0 < mu ^ 2 * ((1 - mu) / sigma ^ 2 - 1 / mu) := by
    have : (0:ℝ) < mu ^ 2 := by positivity
    nlinarith
  have hfac : 0 < 1 / mu - 1 := by
    have : 1 < 1 / mu := by
      rw [lt_div_iff hmu0]
      linarith
    linarith
  constructor
  · simpa [alpha_beta] using halpha
  · simp only [alpha_beta]
    exact mul_pos halpha hfac

/-- Claim C1 counterexample: for the infeasible prior `mu = 0.5, sigma = 0.9`
(variance exceeds the feasible maximum `0.25`), `alpha_beta` does not fail:
it returns the concrete pair `(-28/81, -28/81)`. -/
theorem alpha_beta_infeasible_counterexample :
    alpha_beta (1/2) (9/10) = (-(28/81), -(28/81)) := by
  unfold alpha_beta
  norm_num [Prod.ext_iff]

/-- Claim C1 (amended): for inputs with infeasible variance
(`mu(1-mu) ≤ sigma²`), `alpha_beta` does not raise an error: it returns a
value whose components are both non-positive, which is silently handed to
downstream computation. -/
theorem alpha_beta_infeasible_nonpositive (mu sigma : ℝ) (hmu0 : 0 < mu)
    (hmu1 : mu < 1) (hs : 0 < sigma) (hvar : mu * (1 - mu) ≤ sigma ^ 2) :
    (alpha_beta mu sigma).1 ≤ 0 ∧ (alpha_beta mu sigma).2 ≤ 0 := by
  have hs2 : (0:ℝ) < sigma ^ 2 := by positivity
  have h1 : (1 - mu) / sigma ^ 2 ≤ 1 / mu := by
    rw [div_le_div_iff hs2 hmu0]
    nlinarith
  have halpha : mu ^ 2 * ((1 - mu) / sigma ^ 2 - 1 / mu) ≤ 0 := by
    have h2 : (1 - mu) / sigma ^ 2 - 1 / mu ≤ 0 := by linarith
    have h3 : (0:ℝ) ≤ mu ^ 2 := by positivity
    exact mul_nonpos_of_nonneg_of_nonpos h3 h2
  have hfac : 0 ≤ 1 / mu - 1 := by
    have : 1 ≤ 1 / mu := by
      rw [le_div_iff hmu0]
      linarith
    linarith
  constructor
  · simpa [alpha_beta] using halpha
  · simp only [alpha_beta]
    exact mul_nonpos_of_nonpos_of_nonneg halpha hfac

/-- Witness for the amended C1 theorem at `mu = 1/2, sigma = 9/10`. -/
theorem alpha_beta_infeasible_nonpositive_witness :
    (alpha_beta (1/2) (9/10)).1 ≤ 0 ∧ (alpha_beta (1/2) (9/10)).2 ≤ 0 :=
  alpha_beta_infeasible_nonpositive (1/2) (9/10) (by norm_num) (by norm_num)
    (by norm_num) (by norm_num)

/-- Claim C4: for every feasible prior (`0 < mu < 1`, `sigma > 0`,
`sigma² < mu(1-mu)`), `alpha_beta` returns `alpha > 0` and `beta > 0`, and
the implied mean `alpha / (alpha + beta)` equals `mu` (exactly, over `ℝ`). -/
theorem alpha_beta_valid (mu sigma : ℝ) (hmu0 : 0 < mu) (hmu1 : mu < 1)
    (hs : 0 < sigma) (hvar : sigma ^ 2 < mu * (1 - mu)) :
    0 < (alpha_beta mu sigma).1 ∧ 0 < (alpha_beta mu sigma).2 ∧
      (alpha_beta mu sigma).1 / ((alpha_beta mu sigma).1 + (alpha_beta mu sigma).2)
        = mu := by
  obtain ⟨ha, hb⟩ := alpha_beta_pos mu sigma hmu0 hmu1 hs hvar
  refine ⟨ha, hb, ?_⟩
  have hmu : mu ≠ 0 := ne_of_gt hmu0
  have ha' : (alpha_beta mu sigma).1 ≠ 0 := ne_of_gt ha
  simp only [alpha_beta] at ha' ⊢
  rw [show mu ^ 2 * ((1 - mu) / sigma ^ 2 - 1 / mu)
      + mu ^ 2 * ((1 - mu) / sigma ^ 2 - 1 / mu) * (1 / mu - 1)
      = mu ^ 2 * ((1 - mu) / sigma ^ 2 - 1 / mu) * (1 / mu) by ring]
  rw [div_mul_eq_div_div, div_self ha', one_div_one_div]

/-- Witness for C4 at `mu = 2/5, sigma = 1/20` (where `alpha_beta` returns
`(38, 57)` and `38 / 95 = 2/5`). -/
theorem alpha_beta_valid_witness :
    0 < (alpha_beta (2/5) (1/20)).1 ∧ 0 < (alpha_beta (2/5) (1/20)).2 ∧
      (alpha_beta (2/5) (1/20)).1
        / ((alpha_beta (2/5) (1/20)).1 + (alpha_beta (2/5) (1/20)).2) = 2/5 :=
  alpha_beta_valid (2/5) (1/20) (by norm_num) (by norm_num) (by norm_num)
    (by norm_num)

/-- Claim C9: `alpha_beta` is mirror-symmetric about `mu = 1/2`: replacing
`mu` by `1 - mu` swaps the two returned parameters, exactly over `ℝ`. -/
theorem alpha_beta_mirror (mu sigma : ℝ) (hmu0 : 0 < mu) (hmu1 : mu < 1)
    (hs : 0 < sigma) :
    alpha_beta (1 - mu) sigma = ((alpha_beta mu sigma).2, (alpha_beta mu sigma).1) := by
  have h0 : mu ≠ 0 := ne_of_gt hmu0
  have h1 : (1:ℝ) - mu ≠ 0 := by
    intro h
    apply absurd hmu1
    simp [show mu = 1 by linarith]
  have hs2 : sigma ^ 2 ≠ 0 := by positivity
  unfold alpha_beta
  simp only [Prod.mk.injEq]
  constructor
  · field_simp
    ring
  · field_simp
    ring

/-- Witness for C9 at `mu = 1/3, sigma = 1/10`. -/
theorem alpha_beta_mirror_witness :
    alpha_beta (1 - 1/3) (1/10)
      = ((alpha_beta (1/3) (1/10)).2, (alpha_beta (1/3) (1/10)).1) :=
  alpha_beta_mirror (1/3) (1/10) (by norm_num) (by norm_num) (by norm_num)

/-- Characterization of `line` below the median band (`total ≠ 2`). -/
lemma line_low {i total : ℕ} (htot : total ≠ 2)
    (h : (i : ℚ) < ((total : ℚ) - 1) / 2 - 1/2) : line i total = "b-" := by
  unfold line
  rw [if_neg htot]
  show (if (i : ℚ) < ((total : ℚ) - 1) / 2 - 1/2 then "b-"
    else if (i : ℚ) > ((total : ℚ) - 1) / 2 + 1/2 then "r-" else "g-") = "b-"
  rw [if_pos h]

/-- Characterization of `line` above the median band (`total ≠ 2`). -/
lemma line_high {i total : ℕ} (htot : total ≠ 2)
    (h : ((total : ℚ) - 1) / 2 + 1/2 < (i : ℚ)) : line i total = "r-" := by
  unfold line
  rw [if_neg htot]
  show (if (i : ℚ) < ((total : ℚ) - 1) / 2 - 1/2 then "b-"
    else if (i : ℚ) > ((total : ℚ) - 1) / 2 + 1/2 then "r-" else "g-") = "r-"
  have h' : ¬ ((i : ℚ) < ((total : ℚ) - 1) / 2 - 1/2) := by
    push_neg
    linarith
  rw [if_neg h', if_pos h]

/-- Characterization of `line` inside the median band (`total ≠ 2`). -/
lemma line_mid {i total : ℕ} (htot : total ≠ 2)
    (h1 : ¬ ((i : ℚ) < ((total : ℚ) - 1) / 2 - 1/2))
    (h2 : ¬ (((total : ℚ) - 1) / 2 + 1/2 < (i : ℚ))) : line i total = "g-" := by
  unfold line
  rw [if_neg htot]
  show (if (i : ℚ) < ((total : ℚ) - 1) / 2 - 1/2 then "b-"
    else if (i : ℚ) > ((total : ℚ) - 1) / 2 + 1/2 then "r-" else "g-") = "g-"
  rw [if_neg h1, if_neg h2]

/-- Reading a `"b-"` style back as the `LOW` role. -/
lemma role_of_line_b {i total : ℕ} (h : line i total = "b-") :
    role i total = Role.LOW := by
  unfold role
  rw [h]
  decide

/-- Reading an `"r-"` style back as the `HIGH` role. -/
lemma role_of_line_r {i total : ℕ} (h : line i total = "r-") :
    role i total = Role.HIGH := by
  unfold role
  rw [h]
  decide

/-- Reading a `"g-"` style back as the `MID` role. -/
lemma role_of_line_g {i total : ℕ} (h : line i total = "g-") :
    role i total = Role.MID := by
  unfold role
  rw [h]
  decide

/-- Claim C7: the line-role classifier gives `LOW`/`HIGH` for exactly two
curves (no `MID`), and otherwise classifies an index against
`median = (total - 1)/2`: below `median - 0.5` is `LOW`, above `median + 0.5`
is `HIGH`, anything else is `MID`; in particular `role 2 5 = MID`,
`role 0 5 = LOW`, `role 4 5 = HIGH`. -/
theorem role_spec :
    role 0 2 = Role.LOW ∧ role 1 2 = Role.HIGH ∧ role 2 5 = Role.MID ∧
    role 0 5 = Role.LOW ∧ role 4 5 = Role.HIGH ∧
    ∀ i total : ℕ, total ≠ 2 →
      (((i : ℚ) < ((total : ℚ) - 1) / 2 - 1/2 → role i total = Role.LOW) ∧
       (((total : ℚ) - 1) / 2 + 1/2 < (i : ℚ) → role i total = Role.HIGH) ∧
       (¬ ((i : ℚ) < ((total : ℚ) - 1) / 2 - 1/2) →
         ¬ (((total : ℚ) - 1) / 2 + 1/2 < (i : ℚ)) → role i total = Role.MID)) := by
  refine ⟨by decide, by decide, ?_, ?_, ?_, ?_⟩
  · exact role_of_line_g (line_mid (by norm_num) (by norm_num) (by norm_num))
  · exact role_of_line_b (line_low (by norm_num) (by norm_num))
  · exact role_of_line_r (line_high (by norm_num) (by norm_num))
  · intro i total htot
    exact ⟨fun h => role_of_line_b (line_low htot h),
      fun h => role_of_line_r (line_high htot h),
      fun h1 h2 => role_of_line_g (line_mid htot h1 h2)⟩

/-- Witness for the general clause of C7: `role 6 7 = HIGH` since
`6 > (7-1)/2 + 0.5 = 3.5`. -/
theorem role_spec_witness : role 6 7 = Role.HIGH :=
  (role_spec.2.2.2.2.2 6 7 (by norm_num)).2.1 (by norm_num)

/-- Claim C2: `winning_probabilities` returns a same-length, order-preserving,
one-to-one image of the input list: it is exactly the map sending each
`fraction_in_favor` value `x` to `1 - betaCdf (alpha + c*x) (beta + c*(1-x)) (1/2)`
with `(alpha, beta) = alpha_beta mu sigma` and `c = total_votes * fraction_counted`;
in particular the `i`-th output element is the image of the `i`-th input element. -/
theorem winning_probabilities_spec (mu sigma T f : ℝ) (xs : List ℝ) :
    (winning_probabilities mu sigma T f xs).length = xs.length ∧
    winning_probabilities mu sigma T f xs = xs.map (fun x =>
      1 - betaCdf ((alpha_beta mu sigma).1 + T * f * x)
        ((alpha_beta mu sigma).2 + T * f * (1 - x)) (1/2)) ∧
    ∀ i : ℕ, (winning_probabilities mu sigma T f xs)[i]? = (xs[i]?).map (fun x =>
      1 - betaCdf ((alpha_beta mu sigma).1 + T * f * x)
        ((alpha_beta mu sigma).2 + T * f * (1 - x)) (1/2)) := by
  refine ⟨?_, winning_probabilities_eq_map mu sigma T f xs, ?_⟩
  · rw [winning_probabilities_eq_map]
    exact xs.length_map _
  · intro i
    rw [winning_probabilities_eq_map]
    exact List.getElem?_map _ xs i

/-- Claim C5: with `fraction_counted = 0` (or `total_votes = 0`) the posterior
equals the prior: every entry of the result is the constant
`1 - betaCdf alpha beta (1/2)`, independent of the `fraction_in_favor` values. -/
theorem winning_probabilities_no_count (mu sigma T f : ℝ) (xs : List ℝ) :
    winning_probabilities mu sigma T 0 xs = xs.map (fun _ =>
      1 - betaCdf (alpha_beta mu sigma).1 (alpha_beta mu sigma).2 (1/2)) ∧
    winning_probabilities mu sigma 0 f xs = xs.map (fun _ =>
      1 - betaCdf (alpha_beta mu sigma).1 (alpha_beta mu sigma).2 (1/2)) := by
  constructor <;>
  · rw [winning_probabilities_eq_map]
    congr 1
    funext x
    norm_num

/-- Claim C8: the output depends on `total_votes` and `fraction_counted`
only through their product `counted_votes`. -/
theorem winning_probabilities_counted_votes_only (mu sigma T1 f1 T2 f2 : ℝ)
    (xs : List ℝ) (h : T1 * f1 = T2 * f2) :
    winning_probabilities mu sigma T1 f1 xs
      = winning_probabilities mu sigma T2 f2 xs := by
  rw [winning_probabilities_eq_map, winning_probabilities_eq_map, h]

/-- Witness for C8: `(T, f) = (2, 3)` and `(6, 1)` have the same product. -/
theorem winning_probabilities_counted_votes_only_witness :
    winning_probabilities (2/5) (1/20) 2 3 [0]
      = winning_probabilities (2/5) (1/20) 6 1 [0] :=
  winning_probabilities_counted_votes_only (2/5) (1/20) 2 3 6 1 [0] (by norm_num)

/-- Claim C10: on the empty input list `winning_probabilities` returns the
empty list (the loop body, and with it every posterior evaluation, is never
reached). -/
theorem winning_probabilities_nil (mu sigma T f : ℝ) :
    winning_probabilities mu sigma T f [] = [] := by
  rw [winning_probabilities_eq_map]
  rfl

/-- Claim C6 counterexample: the call with `fraction_counted = 2 ∉ [0,1]` is
not rejected: it computes and returns the posterior value
`[1 - betaCdf 138 157 (1/2)]` (prior `(38, 57)`, `counted_votes = 200`). -/
theorem winning_probabilities_invalid_counterexample :
    winning_probabilities (2/5) (1/20) 100 2 [1/2]
      = [1 - betaCdf 138 157 (1/2)] := by
  rw [winning_probabilities_eq_map]
  norm_num [alpha_beta]

/-- Claim C6 (amended): `winning_probabilities` performs no input validation:
even when `fraction_counted` lies outside `[0,1]`, or `total_votes` is
negative, or some `fraction_in_favor` lies outside `[0,1]`, the call is not
rejected: it computes the usual posterior formula for every input element. -/
theorem winning_probabilities_no_validation (mu sigma T f : ℝ) (xs : List ℝ)
    (h : f < 0 ∨ 1 < f ∨ T < 0 ∨ ∃ x ∈ xs, x < 0 ∨ 1 < x) :
    winning_probabilities mu sigma T f xs = xs.map (fun x =>
      1 - betaCdf ((alpha_beta mu sigma).1 + T * f * x)
        ((alpha_beta mu sigma).2 + T * f * (1 - x)) (1/2)) :=
  winning_probabilities_eq_map mu sigma T f xs

/-- Witness for the amended C6 theorem: the invalid `fraction_counted = 2`
still yields the mapped posterior values. -/
theorem winning_probabilities_no_validation_witness :
    winning_probabilities (2/5) (1/20) 100 2 [1/2] = [(1:ℝ)/2].map (fun x =>
      1 - betaCdf ((alpha_beta (2/5) (1/20)).1 + 100 * 2 * x)
        ((alpha_beta (2/5) (1/20)).2 + 100 * 2 * (1 - x)) (1/2)) :=
  winning_probabilities_no_validation (2/5) (1/20) 100 2 [1/2]
    (Or.inr (Or.inl (by norm_num)))

/-- The Beta kernel is nonnegative on `[0, 1]`. -/
lemma betaKernel_nonneg {a b t : ℝ} (ht : 0 ≤ t) (ht1 : t ≤ 1) :
    0 ≤ betaKernel a b t :=
  mul_nonneg (Real.rpow_nonneg ht _) (Real.rpow_nonneg (by linarith) _)

/-- The Beta kernel is positive on `(0, 1)`. -/
lemma betaKernel_pos {a b t : ℝ} (ht : 0 < t) (ht1 : t < 1) :
    0 < betaKernel a b t :=
  mul_pos (Real.rpow_pos_of_pos ht _) (Real.rpow_pos_of_pos (by linarith) _)

/-- The Beta kernel is interval integrable on `[0, 1/2]` when `a > 0`
(the possible singularity at `0` is integrable). -/
lemma betaKernel_integrable_left {a b : ℝ} (ha : 0 < a) :
    IntervalIntegrable (betaKernel a b) volume 0 (1/2) := by
  have h1 : IntervalIntegrable (fun t : ℝ => t ^ (a - 1)) volume 0 (1/2) :=
    intervalIntegral.intervalIntegrable_rpow' (by linarith)
  have h2 : ContinuousOn (fun t : ℝ => (1 - t) ^ (b - 1)) (Set.uIcc 0 (1/2)) := by
    apply ContinuousOn.rpow_const
    · exact (continuous_const.sub continuous_id).continuousOn
    · intro t ht
      rw [Set.uIcc_of_le (by norm_num : (0:ℝ) ≤ 1/2)] at ht
      left
      have : (0:ℝ) < 1 - t := by
        have := ht.2
        linarith
      exact this.ne'
  simpa [betaKernel] using h1.mul_continuousOn h2

/-- The Beta kernel is interval integrable on `[1/2, 1]` when `b > 0`
(the possible singularity at `1` is integrable). -/
lemma betaKernel_integrable_right {a b : ℝ} (hb : 0 < b) :
    IntervalIntegrable (betaKernel a b) volume (1/2) 1 := by
  have h1 : IntervalIntegrable (fun t : ℝ => t ^ (b - 1)) volume 0 (1/2) :=
    intervalIntegral.intervalIntegrable_rpow' (by linarith)
  have h2 : IntervalIntegrable (fun t : ℝ => (1 - t) ^ (b - 1)) volume (1/2) 1 := by
    have h2' := (h1.comp_sub_left 1).symm
    norm_num at h2'
    exact h2'
  have h3 : ContinuousOn (fun t : ℝ => t ^ (a - 1)) (Set.uIcc (1/2) 1) := by
    apply ContinuousOn.rpow_const continuous_id.continuousOn
    intro t ht
    rw [Set.uIcc_of_le (by norm_num : (1/2:ℝ) ≤ 1)] at ht
    left
    have : (0:ℝ) < t := by
      have := ht.1
      linarith
    exact this.ne'
  simpa [betaKernel] using h2.continuousOn_mul h3

/-- The Beta kernel is interval integrable on all of `[0, 1]` for positive
shape parameters. -/
lemma betaKernel_integrable {a b : ℝ} (ha : 0 < a) (hb : 0 < b) :
    IntervalIntegrable (betaKernel a b) volume 0 1 :=
  (betaKernel_integrable_left ha).trans (betaKernel_integrable_right hb)

/-- The full Beta integral splits at `1/2`. -/
lemma incompleteBeta_one_split {a b : ℝ} (ha : 0 < a) (hb : 0 < b) :
    incompleteBeta a b 1
      = (∫ t in (0:ℝ)..(1/2), betaKernel a b t)
        + ∫ t in (1/2:ℝ)..1, betaKernel a b t := by
  unfold incompleteBeta
  exact (intervalIntegral.integral_add_adjacent_intervals
    (betaKernel_integrable_left ha) (betaKernel_integrable_right hb)).symm

/-- The full Beta integral is strictly positive for positive shape
parameters. -/
lemma incompleteBeta_one_pos {a b : ℝ} (ha : 0 < a) (hb : 0 < b) :
    0 < incompleteBeta a b 1 := by
  unfold incompleteBeta
  refine intervalIntegral_pos_of_pos_on (betaKernel_integrable ha hb) ?_ (by norm_num)
  intro t ht
  exact betaKernel_pos ht.1 ht.2

/-- Any piece of the Beta integral over a subinterval of `[0, 1]` is
nonnegative. -/
lemma betaKernel_integral_nonneg (a b : ℝ) {x y : ℝ} (hx : 0 ≤ x) (hxy : x ≤ y)
    (hy : y ≤ 1) : 0 ≤ ∫ t in x..y, betaKernel a b t := by
  apply intervalIntegral.integral_nonneg hxy
  intro t ht
  exact betaKernel_nonneg (le_trans hx ht.1) (le_trans ht.2 hy)

/-- Comparison of interval integrals from a pointwise bound on the open
interval (endpoint behavior of real powers is irrelevant). -/
lemma integral_mono_of_Ioo {F G : ℝ → ℝ} {x y : ℝ} (hxy : x ≤ y)
    (hF : IntervalIntegrable F volume x y) (hG : IntervalIntegrable G volume x y)
    (h : ∀ t ∈ Set.Ioo x y, F t ≤ G t) :
    (∫ t in x..y, F t) ≤ ∫ t in x..y, G t := by
  rw [intervalIntegral.integral_of_le hxy, intervalIntegral.integral_of_le hxy,
    MeasureTheory.integral_Ioc_eq_integral_Ioo, MeasureTheory.integral_Ioc_eq_integral_Ioo]
  exact MeasureTheory.setIntegral_mono_on
    ((intervalIntegrable_iff_integrableOn_Ioo_of_le hxy).mp hF)
    ((intervalIntegrable_iff_integrableOn_Ioo_of_le hxy).mp hG)
    measurableSet_Ioo h

/-- Below `1/2`, moving weight `d ≥ 0` from the second to the first shape
parameter decreases the Beta kernel pointwise. -/
lemma betaKernel_shift_le_left {a b d t : ℝ} (hd : 0 ≤ d) (ht0 : 0 < t)
    (ht : t ≤ 1/2) : betaKernel (a + d) b t ≤ betaKernel a (b + d) t := by
  have h1t : (0:ℝ) < 1 - t := by linarith
  have e1 : t ^ (a + d - 1) = t ^ (a - 1) * t ^ d := by
    rw [← Real.rpow_add ht0]
    congr 1
    ring
  have e2 : (1 - t) ^ (b + d - 1) = (1 - t) ^ (b - 1) * (1 - t) ^ d := by
    rw [← Real.rpow_add h1t]
    congr 1
    ring
  have hcmp : t ^ d ≤ (1 - t) ^ d :=
    Real.rpow_le_rpow (le_of_lt ht0) (by linarith) hd
  have hker : 0 ≤ t ^ (a - 1) * (1 - t) ^ (b - 1) :=
    mul_nonneg (Real.rpow_nonneg (le_of_lt ht0) _)
      (Real.rpow_nonneg (le_of_lt h1t) _)
  unfold betaKernel
  rw [e1, e2]
  calc t ^ (a - 1) * t ^ d * (1 - t) ^ (b - 1)
      = t ^ (a - 1) * (1 - t) ^ (b - 1) * t ^ d := by ring
    _ ≤ t ^ (a - 1) * (1 - t) ^ (b - 1) * (1 - t) ^ d :=
        mul_le_mul_of_nonneg_left hcmp hker
    _ = t ^ (a - 1) * ((1 - t) ^ (b - 1) * (1 - t) ^ d) := by ring

/-- Above `1/2`, moving weight `d ≥ 0` from the second to the first shape
parameter increases the Beta kernel pointwise. -/
lemma betaKernel_shift_le_right {a b d t : ℝ} (hd : 0 ≤ d) (ht : 1/2 ≤ t)
    (ht1 : t < 1) : betaKernel a (b + d) t ≤ betaKernel (a + d) b t := by
  have ht0 : (0:ℝ) < t := by linarith
  have h1t : (0:ℝ) < 1 - t := by linarith
  have e1 : t ^ (a + d - 1) = t ^ (a - 1) * t ^ d := by
    rw [← Real.rpow_add ht0]
    congr 1
    ring
  have e2 : (1 - t) ^ (b + d - 1) = (1 - t) ^ (b - 1) * (1 - t) ^ d := by
    rw [← Real.rpow_add h1t]
    congr 1
    ring
  have hcmp : (1 - t) ^ d ≤ t ^ d :=
    Real.rpow_le_rpow (le_of_lt h1t) (by linarith) hd
  have hker : 0 ≤ t ^ (a - 1) * (1 - t) ^ (b - 1) :=
    mul_nonneg (Real.rpow_nonneg (le_of_lt ht0) _)
      (Real.rpow_nonneg (le_of_lt h1t) _)
  unfold betaKernel
  rw [e1, e2]
  calc t ^ (a - 1) * ((1 - t) ^ (b - 1) * (1 - t) ^ d)
      = t ^ (a - 1) * (1 - t) ^ (b - 1) * (1 - t) ^ d := by ring
    _ ≤ t ^ (a - 1) * (1 - t) ^ (b - 1) * t ^ d :=
        mul_le_mul_of_nonneg_left hcmp hker
    _ = t ^ (a - 1) * t ^ d * (1 - t) ^ (b - 1) := by ring

/-- Monotonicity of the Beta CDF at `1/2` under the conjugate update: moving
posterior weight `d ≥ 0` from the against-parameter to the in-favor-parameter
cannot increase the probability mass below `1/2`. -/
lemma betaCdf_half_shift_le {a b d : ℝ} (ha : 0 < a) (hb : 0 < b) (hd : 0 ≤ d) :
    betaCdf (a + d) b (1/2) ≤ betaCdf a (b + d) (1/2) := by
  have had : 0 < a + d := by linarith
  have hbd : 0 < b + d := by linarith
  set u := ∫ t in (0:ℝ)..(1/2), betaKernel a (b + d) t with hu
  set U := ∫ t in (1/2:ℝ)..1, betaKernel a (b + d) t with hU
  set v := ∫ t in (0:ℝ)..(1/2), betaKernel (a + d) b t with hv
  set V := ∫ t in (1/2:ℝ)..1, betaKernel (a + d) b t with hV
  have hvu : v ≤ u := integral_mono_of_Ioo (by norm_num)
    (betaKernel_integrable_left had) (betaKernel_integrable_left ha)
    (fun t ht => betaKernel_shift_le_left hd ht.1 (le_of_lt ht.2))
  have hUV : U ≤ V := integral_mono_of_Ioo (by norm_num)
    (betaKernel_integrable_right hbd) (betaKernel_integrable_right hb)
    (fun t ht => betaKernel_shift_le_right hd (le_of_lt ht.1) ht.2)
  have hu0 : 0 ≤ u := betaKernel_integral_nonneg _ _ le_rfl (by norm_num) (by norm_num)
  have hv0 : 0 ≤ v := betaKernel_integral_nonneg _ _ le_rfl (by norm_num) (by norm_num)
  have hU0 : 0 ≤ U := betaKernel_integral_nonneg _ _ (by norm_num) (by norm_num) le_rfl
  have hV0 : 0 ≤ V := betaKernel_integral_nonneg _ _ (by norm_num) (by norm_num) le_rfl
  have hsum1 : incompleteBeta (a + d) b 1 = v + V := incompleteBeta_one_split had hb
  have hsum2 : incompleteBeta a (b + d) 1 = u + U := incompleteBeta_one_split ha hbd
  have hpos1 : 0 < v + V := hsum1 ▸ incompleteBeta_one_pos had hb
  have hpos2 : 0 < u + U := hsum2 ▸ incompleteBeta_one_pos ha hbd
  have hnum1 : incompleteBeta (a + d) b (1/2) = v := rfl
  have hnum2 : incompleteBeta a (b + d) (1/2) = u := rfl
  unfold betaCdf
  rw [hsum1, hsum2, hnum1, hnum2, div_le_div_iff hpos1 hpos2]
  have k1 : v * U ≤ u * U := mul_le_mul_of_nonneg_right hvu hU0
  have k2 : u * U ≤ u * V := mul_le_mul_of_nonneg_left hUV hu0
  nlinarith [k1, k2]

/-- Claim C3: for a fixed feasible prior (`0 < mu < 1`, `sigma > 0`,
`sigma² < mu(1-mu)`) and fixed valid count data (`total_votes ≥ 0`,
`fraction_counted ∈ [0,1]`), the winning probability is monotonically
non-decreasing in `fraction_in_favor`: if `0 ≤ x1 ≤ x2 ≤ 1` then the
probability computed for `x1` is at most the probability computed for `x2`. -/
theorem winning_probabilities_monotone (mu sigma T f x1 x2 : ℝ)
    (hmu0 : 0 < mu) (hmu1 : mu < 1) (hs : 0 < sigma)
    (hvar : sigma ^ 2 < mu * (1 - mu))
    (hT : 0 ≤ T) (hf0 : 0 ≤ f) (hf1 : f ≤ 1)
    (hx0 : 0 ≤ x1) (hx12 : x1 ≤ x2) (hx1 : x2 ≤ 1) :
    ∀ p q : ℝ, winning_probabilities mu sigma T f [x1, x2] = [p, q] → p ≤ q := by
  intro p q hpq
  rw [winning_probabilities_eq_map] at hpq
  simp only [List.map_cons, List.map_nil, List.cons.injEq, and_true] at hpq
  obtain ⟨hp, hq⟩ := hpq
  subst hp
  subst hq
  apply sub_le_sub_left
  obtain ⟨hA, hB⟩ := alpha_beta_pos mu sigma hmu0 hmu1 hs hvar
  have hc : 0 ≤ T * f := mul_nonneg hT hf0
  have ha : 0 < (alpha_beta mu sigma).1 + T * f * x1 :=
    add_pos_of_pos_of_nonneg hA (mul_nonneg hc hx0)
  have hb : 0 < (alpha_beta mu sigma).2 + T * f * (1 - x2) :=
    add_pos_of_pos_of_nonneg hB (mul_nonneg hc (by linarith))
  have hd : 0 ≤ T * f * (x2 - x1) := mul_nonneg hc (by linarith)
  have key := betaCdf_half_shift_le ha hb hd
  have e1 : (alpha_beta mu sigma).1 + T * f * x2
      = (alpha_beta mu sigma).1 + T * f * x1 + T * f * (x2 - x1) := by ring
  have e2 : (alpha_beta mu sigma).2 + T * f * (1 - x1)
      = (alpha_beta mu sigma).2 + T * f * (1 - x2) + T * f * (x2 - x1) := by ring
  rw [e1, e2]
  exact key

/-- Witness for C3: with the prior `(38, 57)` and one counted vote
(`T = 100`, `f = 1/100`), the scenario `x1 = 0, x2 = 1` gives posteriors
`(38, 58)` and `(39, 57)` and the corresponding win probabilities are
ordered. -/
theorem winning_probabilities_monotone_witness :
    (1:ℝ) - betaCdf 38 58 (1/2) ≤ 1 - betaCdf 39 57 (1/2) := by
  apply winning_probabilities_monotone (2/5) (1/20) 100 (1/100) 0 1
    (by norm_num) (by norm_num) (by norm_num) (by norm_num) (by norm_num)
    (by norm_num) (by norm_num) (by norm_num) (by norm_num) (by norm_num)
  rw [winning_probabilities_eq_map]
  norm_num [alpha_beta]
